import Mathlib

/-!
Verification of the Tower of Hanoi engine (package `hanoi`: `rules.py`,
`solvers.py`, `trace.py`) against its natural-language specification.

The Python code is shallowly embedded: pegs are `Fin 3` (the Python
`Literal[0, 1, 2]`), a game state is the triple of peg contents indexed by
peg (the Python 3-tuple of disk lists, bottom of a peg at index 0), disks
are records of `id` and `size` (Python ints, hence `Int` here), and
fallible operations return `Except String`.
-/

namespace Hanoi

/-- Python `Peg = Literal[0, 1, 2]`. -/
abbrev Peg := Fin 3

/-- Python `Disk` TypedDict: `{id: int, size: int}`. -/
structure Disk where
  id : Int
  size : Int
  deriving DecidableEq, Repr

/-- Python `Move` TypedDict: `{from_: Peg, to: Peg}`.  The Python field
`to` is spelled `to_` here because `to` is reserved in Lean. -/
structure Move where
  from_ : Peg
  to_ : Peg
  deriving DecidableEq, Repr

/-- Python `PegState = List[Disk]`; index 0 is the bottom of the peg. -/
abbrev PegState := List Disk

/-- Python `GameState = Tuple[PegState, PegState, PegState]`, a 3-tuple
indexed by peg number, modelled as a function from `Fin 3`. -/
abbrev GameState := Peg → PegState

/-- `rules.initial_state`: `disks = [Disk(id=i, size=n-i) for i in range(n)]`,
all placed on peg 0, pegs 1 and 2 empty.  The source performs no validation
of `n`: for `n ≤ 0`, `range(n)` is empty and the function returns the state
with three empty pegs (`Int.toNat` of a non-positive number is 0). -/
def initial_state (n : Int) : GameState := fun p =>
  if p = 0 then
    (List.range n.toNat).map (fun (i : Nat) => { id := (i : Int), size := n - (i : Int) })
  else []

/-- `rules.is_legal_move`: the source peg must be non-empty
(`if not from_peg: return False`), and the destination peg must be empty or
carry a strictly larger top disk
(`if to_peg and to_peg[-1]["size"] <= from_peg[-1]["size"]: return False`).
The top of a peg is the last list element (`[-1]`, here `getLast?`). -/
def is_legal_move (s : GameState) (m : Move) : Bool :=
  match (s m.from_).getLast? with
  | none => false
  | some fd =>
    match (s m.to_).getLast? with
    | none => true
    | some td => ! decide (td.size ≤ fd.size)

/-- `rules.apply_move`: raises `ValueError` (modelled as `.error`) when the
move is illegal; otherwise pops the last disk of the source peg and appends
it to the destination peg, returning the resulting state.  (The `none`
branch of the pop is unreachable: legality requires a non-empty source.)
This function returns the contents of the tuple the Python function
returns; the aliasing of the input's inner lists is modelled separately by
`apply_move_input_after`. -/
def apply_move (s : GameState) (m : Move) : Except String GameState :=
  if is_legal_move s m then
    match (s m.from_).getLast? with
    | some d =>
      let s1 := Function.update s m.from_ (s m.from_).dropLast
      .ok (Function.update s1 m.to_ (s1 m.to_ ++ [d]))
    | none => .error "Illegal move"
  else .error "Illegal move"

/-- The contents of the *input* state after a call to `apply_move`.
Python's `new_state = list(state)` copies only the outer tuple: the three
inner peg lists are shared between `state` and `new_state`, so the
`.pop()` / `.append()` pair mutates the lists the input tuple refers to.
After a successful call the caller's `state` therefore shows the moved
configuration (the same contents as the returned tuple); on an illegal move
the exception is raised before any mutation, leaving the input unchanged. -/
def apply_move_input_after (s : GameState) (m : Move) : GameState :=
  match apply_move s m with
  | .ok s' => s'
  | .error _ => s

/-- `rules.is_solved`: peg 2 must hold exactly `n` disks
(`len(peg_c) != n`), with `peg_c[i]["size"] == n - i` for every
`i in range(n)`.  `range(n)` is empty for `n ≤ 0`. -/
def is_solved (s : GameState) (n : Int) : Bool :=
  decide (((s 2).length : Int) = n) &&
  (List.range n.toNat).all (fun i =>
    match (s 2).get? i with
    | some d => decide (d.size = n - (i : Int))
    | none => false)

/-- `solvers.hanoi_recursive`: `n = 1` yields the single move `a → b`;
`n ≥ 2` solves `n-1` from `a` to `c`, moves `a → b`, then solves `n-1`
from `c` to `b`.  For `n = 0` the Python generator recurses without ever
reaching a base case (it diverges when consumed); the `0` clause below is a
placeholder for that unreachable case, and every theorem about the solver
assumes `1 ≤ n`. -/
def hanoi_recursive : Nat → Peg → Peg → Peg → List Move
  | 0, _, _, _ => []
  | 1, a, b, _ => [⟨a, b⟩]
  | n + 2, a, b, c =>
    hanoi_recursive (n + 1) a c b ++ ⟨a, b⟩ :: hanoi_recursive (n + 1) c b a

/-- Sequentially apply a list of moves with `apply_move`, propagating the
first failure (this is the replay loop of `tests/test_solvers.py`). -/
def replay (s : GameState) : List Move → Except String GameState
  | [] => .ok s
  | m :: ms =>
    match apply_move s m with
    | .ok s' => replay s' ms
    | .error e => .error e

/-- The states reachable from `initial_state n` by some sequence of moves
that `apply_move` accepts in full. -/
def Reachable (n : Int) (s : GameState) : Prop :=
  ∃ ms : List Move, replay (initial_state n) ms = .ok s

/-- The multiset of all disks present on the three pegs of a state. -/
def asMultiset (s : GameState) : Multiset Disk :=
  (s 0 : Multiset Disk) + (s 1 : Multiset Disk) + (s 2 : Multiset Disk)

/-- `[k, k-1, ..., 1]` as integers: the bottom-to-top sizes of a full
descending tower of `k` disks. -/
def descInt : Nat → List Int
  | 0 => []
  | k + 1 => ((k : Int) + 1) :: descInt k

/-- The identity of one recursive invocation of the traced solver.  Python
builds the string `f"n{n}:{a}->{b}|aux{c}"`; this encoding is injective in
the parameter quadruple `(n, a, b, c)` (the literal delimiters `n`, `:`,
`->`, `|aux` separate the four decimal components unambiguously), so node
ids are modelled by the quadruple itself, with equality agreeing with
Python string equality. -/
structure NodeId where
  n : Nat
  a : Peg
  b : Peg
  c : Peg
  deriving DecidableEq, Repr

/-- Python `TraceEventType = Literal["enter", "move", "exit"]`. -/
inductive EventType where
  | enter
  | move
  | exit
  deriving DecidableEq, Repr

/-- Python `TraceEvent` TypedDict: `type`, `node_id`, optional `move`, and
the logical timestamp `t`. -/
structure TraceEvent where
  type : EventType
  node_id : NodeId
  move : Option Move
  t : Int
  deriving DecidableEq, Repr

/-- The inner `traced_recursive` of `solvers.hanoi_recursive_traced`, with
the `nonlocal t` counter threaded explicitly: given the counter value at
entry, it returns the list of events this call appends (in order) together
with the counter value after the call.  The counter increments by one per
appended event: `enter` at `t0`, then the sub-events, the `move` events at
the then-current counter, and finally `exit`.  This is the event list as it
stands after the returned generator has been fully consumed; for `n = 0`
the Python code would recurse for ever (the `0` clause is an unreachable
placeholder, and all theorems assume `1 ≤ n`). -/
def tracedAux : Nat → Peg → Peg → Peg → Int → List TraceEvent × Int
  | 0, _, _, _, t0 => ([], t0)
  | 1, a, b, c, t0 =>
    ([⟨.enter, ⟨1, a, b, c⟩, none, t0⟩,
      ⟨.move, ⟨1, a, b, c⟩, some ⟨a, b⟩, t0 + 1⟩,
      ⟨.exit, ⟨1, a, b, c⟩, none, t0 + 2⟩], t0 + 3)
  | n + 2, a, b, c, t0 =>
    let q : NodeId := ⟨n + 2, a, b, c⟩
    let r1 := tracedAux (n + 1) a c b (t0 + 1)
    let r2 := tracedAux (n + 1) c b a (r1.2 + 1)
    (⟨.enter, q, none, t0⟩ ::
      (r1.1 ++ ⟨.move, q, some ⟨a, b⟩, r1.2⟩ :: (r2.1 ++ [⟨.exit, q, none, r2.2⟩])),
     r2.2 + 1)

/-- The full event log of `hanoi_recursive_traced(n, a, b, c)` once the
returned move generator has been consumed to exhaustion (the timestamp
counter starts at 0). -/
def tracedEvents (n : Nat) (a b c : Peg) : List TraceEvent :=
  (tracedAux n a b c 0).1

/-- The `events` list at the moment `hanoi_recursive_traced` returns.
The function ends with `return traced_recursive(n, a, b, c), events`;
calling the generator function `traced_recursive` only creates a suspended
generator object without running any of its body, so no `events.append`
has executed yet and the returned list is empty.  Events are appended to
it only as (and if) the caller iterates the returned generator. -/
def hanoi_recursive_traced_events_on_return (n : Nat) (a b c : Peg) : List TraceEvent :=
  let _ := (n, a, b, c)
  []

/-- `trace.build_trace_events`: runs
`_, events = hanoi_recursive_traced(n, a, b, c); return events`.  The move
generator `_` is discarded and never iterated, so the returned list is
exactly the on-return `events` list — which is empty (see
`hanoi_recursive_traced_events_on_return`). -/
def build_trace_events (n : Nat) (a b c : Peg) : List TraceEvent :=
  hanoi_recursive_traced_events_on_return n a b c

/-- The `type = "move"` events of a log, projected to their `move` field
(the projection used by the round-trip property of the spec). -/
def moveEventsOf (es : List TraceEvent) : List Move :=
  es.filterMap (fun e =>
    match e.type with
    | .move => e.move
    | _ => none)

/-- One step of `trace.active_node_at`'s loop body on the `active_nodes`
stack: `enter` appends the node id at the end, `exit` removes the first
occurrence of the node id if present (Python `list.remove`), `move` leaves
the stack unchanged. -/
def stepEvent (st : List NodeId) (e : TraceEvent) : List NodeId :=
  match e.type with
  | .enter => st ++ [e.node_id]
  | .exit => if e.node_id ∈ st then st.erase e.node_id else st
  | .move => st

/-- The loop of `trace.active_node_at`: process events in order, breaking
at the first event whose timestamp exceeds the query `t`. -/
def activeLoop (t : Int) : List TraceEvent → List NodeId → List NodeId
  | [], st => st
  | e :: rest, st => if t < e.t then st else activeLoop t rest (stepEvent st e)

/-- `trace.active_node_at`: run the loop from an empty stack and return the
last element (`active_nodes[-1] if active_nodes else None`). -/
def active_node_at (events : List TraceEvent) (t : Int) : Option NodeId :=
  (activeLoop t events []).getLast?

/-- Processing a whole event list with `stepEvent` (no timestamp cutoff). -/
def procAll (es : List TraceEvent) (st : List NodeId) : List NodeId :=
  es.foldl stepEvent st

/-- One step of strict stack discipline: `exit` unconditionally pops the
most recently pushed entry instead of removing by value. -/
def stepPop (st : List NodeId) (e : TraceEvent) : List NodeId :=
  match e.type with
  | .enter => st ++ [e.node_id]
  | .exit => st.dropLast
  | .move => st

/-- Processing a whole event list with strict stack pops. -/
def procPop (es : List TraceEvent) (st : List NodeId) : List NodeId :=
  es.foldl stepPop st

/-! ### Basic solver lemmas -/

/-- The recursive solver always yields `2 ^ n - 1` moves (also at the
artificial `n = 0` clause, where `2 ^ 0 - 1 = 0`). -/
theorem hanoi_length_all (n : Nat) : ∀ a b c : Peg, (hanoi_recursive n a b c).length = 2 ^ n - 1 := by
  induction n using Nat.strong_induction_on with
  | _ n ih =>
    match n with
    | 0 => intro a b c; rfl
    | 1 => intro a b c; rfl
    | m + 2 =>
      intro a b c
      have h1 := ih (m + 1) (by omega) a c b
      have h2 := ih (m + 1) (by omega) c b a
      have hp : 2 ^ (m + 2) = 2 * 2 ^ (m + 1) := by ring
      have hpos : 1 ≤ 2 ^ (m + 1) := Nat.one_le_two_pow
      simp only [hanoi_recursive, List.length_append, List.length_cons, h1, h2]
      omega

/-! ### Replay of the recursive solution -/

/-- Any peg index coincides with one of three pairwise distinct pegs. -/
theorem tripleCover (a b c p : Peg) (hab : a ≠ b) (hac : a ≠ c) (hbc : b ≠ c) :
    p = a ∨ p = b ∨ p = c := by
  revert hab hac hbc
  revert a b c p
  decide

/-- Replay distributes over list concatenation. -/
theorem replay_append (ms1 ms2 : List Move) (s s' : GameState)
    (h : replay s ms1 = .ok s') : replay s (ms1 ++ ms2) = replay s' ms2 := by
  induction ms1 generalizing s with
  | nil =>
    simp only [replay, Except.ok.injEq] at h
    subst h
    rfl
  | cons m ms ih =>
    simp only [List.cons_append, replay] at h ⊢
    cases happ : apply_move s m with
    | ok s1 =>
      rw [happ] at h
      exact ih s1 h
    | error e =>
      rw [happ] at h
      exact absurd h (by simp)

/-- A move from a non-empty peg onto a peg all of whose disks are larger
than the moved one is accepted by `apply_move`, which pops the source's top
disk and appends it to the destination. -/
theorem apply_move_step (s : GameState) (a b : Peg) (hab : a ≠ b)
    (rest : PegState) (d : Disk) (ha : s a = rest ++ [d])
    (hb : ∀ x ∈ s b, d.size < x.size) :
    apply_move s ⟨a, b⟩ =
      .ok (Function.update (Function.update s a rest) b (s b ++ [d])) := by
  have hlast : (s a).getLast? = some d := by rw [ha]; exact List.getLast?_concat rest
  have hlegal : is_legal_move s ⟨a, b⟩ = true := by
    unfold is_legal_move
    simp only [hlast]
    cases htb : (s b).getLast? with
    | none => rfl
    | some td =>
      have hmem : td ∈ s b := List.mem_of_mem_getLast? (by rw [htb]; rfl)
      have := hb td hmem
      simp only [Bool.not_eq_true']
      rw [decide_eq_false_iff_not]
      omega
  unfold apply_move
  rw [hlegal]
  simp only [if_true, hlast]
  have hdrop : (s a).dropLast = rest := by rw [ha]; exact List.dropLast_concat
  rw [hdrop]
  have hupd : (Function.update s a rest) b = s b :=
    Function.update_noteq (Ne.symm hab) rest s
  rw [hupd]

/-- Correctness of the recursive solver, generalized for the induction:
if peg `a` carries `rest` below a full descending tower `seg` of `k` disks
(sizes `k, k-1, …, 1` bottom-to-top), and every disk of `rest` and of pegs
`b` and `c` is larger than `k`, then replaying `hanoi_recursive k a b c`
succeeds and relocates exactly `seg` onto the top of peg `b`. -/
theorem hanoiSpec : ∀ (k : Nat) (a b c : Peg), a ≠ b → a ≠ c → b ≠ c →
    ∀ (s : GameState) (rest seg : PegState),
    s a = rest ++ seg →
    seg.map Disk.size = descInt k →
    (∀ x ∈ rest, (k : Int) < x.size) →
    (∀ x ∈ s b, (k : Int) < x.size) →
    (∀ x ∈ s c, (k : Int) < x.size) →
    replay s (hanoi_recursive k a b c) =
      .ok (Function.update (Function.update s a rest) b (s b ++ seg)) := by
  intro k
  induction k using Nat.strong_induction_on with
  | _ k ih =>
    match k with
    | 0 =>
      intro a b c hab hac hbc s rest seg ha hsizes hrest hsb hsc
      have hseg : seg = [] := List.map_eq_nil.mp hsizes
      subst hseg
      rw [List.append_nil] at ha
      rw [List.append_nil, ← ha, Function.update_eq_self, Function.update_eq_self]
      rfl
    | 1 =>
      intro a b c hab hac hbc s rest seg ha hsizes hrest hsb hsc
      obtain ⟨d, seg', hseg, hd, htail⟩ := List.map_eq_cons_iff.mp hsizes
      have hseg' : seg' = [] := List.map_eq_nil.mp htail
      subst hseg hseg'
      have hstep := apply_move_step s a b hab rest d ha
        (fun x hx => by have := hsb x hx; rw [hd]; push_cast at this ⊢; omega)
      simp only [hanoi_recursive, replay, hstep]
    | m + 2 =>
      intro a b c hab hac hbc s rest seg ha hsizes hrest hsb hsc
      obtain ⟨d, seg', hseg, hd, htail⟩ := List.map_eq_cons_iff.mp hsizes
      subst hseg
      have hd' : d.size = ((m : Int) + 2) := by rw [hd]; push_cast; ring
      have ha' : s a = (rest ++ [d]) ++ seg' := by
        rw [ha, List.append_assoc]; rfl
      -- Phase 1: move the top m+1 disks from a to c.
      have ih1 := ih (m + 1) (by omega) a c b hac hab (Ne.symm hbc) s (rest ++ [d]) seg' ha' htail
        (by
          intro x hx
          rcases List.mem_append.mp hx with hx | hx
          · have := hrest x hx; push_cast at this ⊢; omega
          · have hxd : x = d := by simpa using hx
            subst hxd; push_cast; omega)
        (fun x hx => by have := hsc x hx; push_cast at this ⊢; omega)
        (fun x hx => by have := hsb x hx; push_cast at this ⊢; omega)
      set s1 := Function.update (Function.update s a (rest ++ [d])) c (s c ++ seg') with hs1
      have hs1a : s1 a = rest ++ [d] := by
        rw [hs1, Function.update_noteq hac, Function.update_same]
      have hs1b : s1 b = s b := by
        rw [hs1, Function.update_noteq hbc, Function.update_noteq (Ne.symm hab)]
      have hs1c : s1 c = s c ++ seg' := by
        rw [hs1, Function.update_same]
      -- Phase 2: move the largest disk from a to b.
      have hstep := apply_move_step s1 a b hab rest d hs1a
        (by
          intro x hx
          rw [hs1b] at hx
          have := hsb x hx
          push_cast at this
          omega)
      set s2 := Function.update (Function.update s1 a rest) b (s1 b ++ [d]) with hs2
      have hs2a : s2 a = rest := by
        rw [hs2, Function.update_noteq hab, Function.update_same]
      have hs2b : s2 b = s b ++ [d] := by
        rw [hs2, Function.update_same, hs1b]
      have hs2c : s2 c = s c ++ seg' := by
        rw [hs2, Function.update_noteq (Ne.symm hbc), Function.update_noteq (Ne.symm hac), hs1c]
      -- Phase 3: move the m+1 disks from c onto b (on top of d).
      have ih2 := ih (m + 1) (by omega) c b a (Ne.symm hbc) (Ne.symm hac) (Ne.symm hab) s2 (s c) seg' hs2c htail
        (fun x hx => by have := hsc x hx; push_cast at this ⊢; omega)
        (by
          intro x hx
          rw [hs2b] at hx
          rcases List.mem_append.mp hx with hx | hx
          · have := hsb x hx; push_cast at this ⊢; omega
          · have hxd : x = d := by simpa using hx
            subst hxd; rw [hd']; push_cast; omega)
        (by
          intro x hx
          rw [hs2a] at hx
          have := hrest x hx
          push_cast at this ⊢
          omega)
      -- Assemble the replay of the concatenated move list.
      have hfinal :
          Function.update (Function.update s2 c (s c)) b (s2 b ++ seg') =
          Function.update (Function.update s a rest) b (s b ++ d :: seg') := by
        funext p
        rcases tripleCover a b c p hab hac hbc with hp | hp | hp
        · subst hp
          rw [Function.update_noteq hab, Function.update_noteq hac,
            Function.update_noteq hab, Function.update_same, hs2a]
        · subst hp
          rw [Function.update_same, Function.update_same, hs2b, List.append_assoc]
          rfl
        · subst hp
          rw [Function.update_noteq (Ne.symm hbc), Function.update_same,
            Function.update_noteq (Ne.symm hbc), Function.update_noteq (Ne.symm hac)]
      calc replay s (hanoi_recursive (m + 2) a b c)
          = replay s (hanoi_recursive (m + 1) a c b ++
              ⟨a, b⟩ :: hanoi_recursive (m + 1) c b a) := rfl
        _ = replay s1 (⟨a, b⟩ :: hanoi_recursive (m + 1) c b a) :=
            replay_append _ _ s s1 ih1
        _ = replay s2 (hanoi_recursive (m + 1) c b a) := by
            simp only [replay, hstep]
        _ = .ok (Function.update (Function.update s a rest) b (s b ++ d :: seg')) := by
            rw [ih2, hfinal]

/-- The bottom-to-top sizes of the initial peg 0 form the full descending
tower `[n, n-1, …, 1]`. -/
theorem initial_sizes (n : Nat) :
    (List.range n).map (fun (i : Nat) => (n : Int) - (i : Int)) = descInt n := by
  induction n with
  | zero => rfl
  | succ m ihm =>
    rw [List.range_succ_eq_map, List.map_cons, List.map_map, descInt, ← ihm]
    refine congrArg₂ List.cons (by push_cast; ring) ?_
    refine List.map_congr_left ?_
    intro i hi
    simp only [Function.comp_apply]
    push_cast
    ring


/-! ### State invariants under legal moves -/

/-- Successful `apply_move` calls are exactly the legal ones, and the
result pops the source's last disk and appends it to the destination. -/
theorem apply_move_ok_elim (s s' : GameState) (m : Move) (h : apply_move s m = .ok s') :
    ∃ d, is_legal_move s m = true ∧ (s m.from_).getLast? = some d ∧
      s' = Function.update (Function.update s m.from_ (s m.from_).dropLast) m.to_
        ((Function.update s m.from_ (s m.from_).dropLast) m.to_ ++ [d]) := by
  unfold apply_move at h
  by_cases hl : is_legal_move s m = true
  · rw [if_pos hl] at h
    cases hg : (s m.from_).getLast? with
    | some d =>
      rw [hg] at h
      refine ⟨d, hl, rfl, ?_⟩
      simpa using h.symm
    | none =>
      rw [hg] at h
      exact absurd h (by simp)
  · rw [if_neg hl] at h
    exact absurd h (by simp)

/-- A legal move never has equal source and destination pegs: with
`from_ = to`, the destination's top equals the source's top, so the
`size <= size` rejection fires (or the source peg is empty). -/
theorem legal_from_ne_to (s : GameState) (m : Move) (h : is_legal_move s m = true) :
    m.from_ ≠ m.to_ := by
  intro heq
  unfold is_legal_move at h
  rw [heq] at h
  cases hg : (s m.to_).getLast? with
  | none => rw [hg] at h; simp at h
  | some fd => rw [hg] at h; simp at h

/-- A legal move onto a non-empty destination lands on a strictly larger
top disk. -/
theorem legal_dest_top (s : GameState) (m : Move) (h : is_legal_move s m = true)
    (d td : Disk) (hd : (s m.from_).getLast? = some d)
    (htd : (s m.to_).getLast? = some td) : d.size < td.size := by
  unfold is_legal_move at h
  rw [hd, htd] at h
  simp at h
  omega

/-- Legal moves preserve the strict bottom-to-top size ordering of every
peg. -/
theorem apply_move_sorted (s s' : GameState) (m : Move) (h : apply_move s m = .ok s')
    (hc : ∀ p, List.Chain' (fun d e => e.size < d.size) (s p)) :
    ∀ p, List.Chain' (fun d e => e.size < d.size) (s' p) := by
  obtain ⟨d, hleg, hlast, rfl⟩ := apply_move_ok_elim s s' m h
  have hft := legal_from_ne_to s m hleg
  have hsplit : (s m.from_).dropLast ++ [d] = s m.from_ :=
    List.dropLast_append_getLast? d (by rw [hlast]; rfl)
  intro p
  by_cases hpt : p = m.to_
  · subst hpt
    rw [Function.update_same, Function.update_noteq (Ne.symm hft)]
    apply List.chain'_append.mpr
    refine ⟨hc _, List.chain'_singleton d, ?_⟩
    intro x hx y hy
    have hyd : d = y := by simpa using hy
    subst hyd
    exact legal_dest_top s m hleg d x hlast (Option.mem_def.mp hx)
  · rw [Function.update_noteq hpt]
    by_cases hpf : p = m.from_
    · subst hpf
      rw [Function.update_same]
      have hcf := hc m.from_
      rw [← hsplit] at hcf
      exact (List.chain'_append.mp hcf).1
    · rw [Function.update_noteq hpf]
      exact hc p

/-- Updating one peg exchanges that peg's disks for the new list in the
board multiset. -/
theorem asMultiset_update (g : GameState) (p : Peg) (B : PegState) :
    asMultiset (Function.update g p B) + ↑(g p) = asMultiset g + ↑B := by
  fin_cases p
  · show asMultiset (Function.update g 0 B) + (↑(g 0) : Multiset Disk) = asMultiset g + ↑B
    unfold asMultiset
    rw [Function.update_same, Function.update_noteq (show (1 : Peg) ≠ 0 by decide),
      Function.update_noteq (show (2 : Peg) ≠ 0 by decide)]
    abel
  · show asMultiset (Function.update g 1 B) + (↑(g 1) : Multiset Disk) = asMultiset g + ↑B
    unfold asMultiset
    rw [Function.update_same, Function.update_noteq (show (0 : Peg) ≠ 1 by decide),
      Function.update_noteq (show (2 : Peg) ≠ 1 by decide)]
    abel
  · show asMultiset (Function.update g 2 B) + (↑(g 2) : Multiset Disk) = asMultiset g + ↑B
    unfold asMultiset
    rw [Function.update_same, Function.update_noteq (show (0 : Peg) ≠ 2 by decide),
      Function.update_noteq (show (1 : Peg) ≠ 2 by decide)]
    abel

/-- Legal moves preserve the multiset of disks on the board. -/
theorem apply_move_multiset (s s' : GameState) (m : Move) (h : apply_move s m = .ok s') :
    asMultiset s' = asMultiset s := by
  obtain ⟨d, hleg, hlast, rfl⟩ := apply_move_ok_elim s s' m h
  have hsplit : (s m.from_).dropLast ++ [d] = s m.from_ :=
    List.dropLast_append_getLast? d (by rw [hlast]; rfl)
  set g : GameState := Function.update s m.from_ (s m.from_).dropLast with hg
  have h1 := asMultiset_update g m.to_ (g m.to_ ++ [d])
  have h2 := asMultiset_update s m.from_ (s m.from_).dropLast
  rw [← hg] at h2
  have hcoe : (↑(g m.to_ ++ [d]) : Multiset Disk) = ↑(g m.to_) + {d} := by
    rw [← Multiset.coe_add]
    rfl
  have hsf : (↑(s m.from_) : Multiset Disk) = ↑((s m.from_).dropLast) + {d} := by
    conv_lhs => rw [← hsplit]
    rw [← Multiset.coe_add]
    rfl
  rw [hcoe] at h1
  rw [show asMultiset g + ((↑(g m.to_) : Multiset Disk) + {d}) =
      (asMultiset g + {d}) + ↑(g m.to_) by abel] at h1
  have h1' := add_right_cancel h1
  rw [hsf] at h2
  rw [show asMultiset g + ((↑((s m.from_).dropLast) : Multiset Disk) + {d}) =
      (asMultiset g + {d}) + ↑((s m.from_).dropLast) by abel] at h2
  have h2' := add_right_cancel h2
  rw [h1', h2']

/-- Replay preserves sortedness and the disk multiset. -/
theorem replay_inv (ms : List Move) : ∀ (s s' : GameState), replay s ms = .ok s' →
    (∀ p, List.Chain' (fun d e => e.size < d.size) (s p)) →
    ((∀ p, List.Chain' (fun d e => e.size < d.size) (s' p)) ∧
      asMultiset s' = asMultiset s) := by
  induction ms with
  | nil =>
    intro s s' h hc
    simp only [replay, Except.ok.injEq] at h
    subst h
    exact ⟨hc, rfl⟩
  | cons m ms ih =>
    intro s s' h hc
    simp only [replay] at h
    cases happ : apply_move s m with
    | ok s1 =>
      rw [happ] at h
      obtain ⟨hc', hm'⟩ := ih s1 s' h (apply_move_sorted s s1 m happ hc)
      exact ⟨hc', hm'.trans (apply_move_multiset s s1 m happ)⟩
    | error e =>
      rw [happ] at h
      exact absurd h (by simp)

/-- The initial state is sorted on every peg. -/
theorem initial_state_sorted (n : Int) :
    ∀ p, List.Chain' (fun d e => e.size < d.size) (initial_state n p) := by
  intro p
  by_cases hp : p = 0
  · subst hp
    show List.Chain' _ ((List.range n.toNat).map _)
    rw [List.chain'_map]
    cases hm : n.toNat with
    | zero => simp
    | succ k =>
      rw [List.chain'_range_succ]
      intro i hi
      simp only
      omega
  · show List.Chain' _ (initial_state n p)
    unfold initial_state
    rw [if_neg hp]
    simp

/-- **C7**.  In every state reachable from `initial_state(n)` by legal
`apply_move` steps, each peg is strictly decreasing in size from bottom to
top, and the multiset of disks on the three pegs equals the initial
`n`-disk set: no disk is created, destroyed or duplicated. -/
theorem reachable_invariants (n : Int) (s : GameState) (h : Reachable n s) :
    (∀ p : Peg, List.Chain' (fun d e => e.size < d.size) (s p)) ∧
    asMultiset s = asMultiset (initial_state n) := by
  obtain ⟨ms, hms⟩ := h
  exact replay_inv ms (initial_state n) s hms (initial_state_sorted n)

/-- Witness for `reachable_invariants`: the state reached from
`initial_state(3)` by the single legal move `0 → 2`. -/
theorem reachable_invariants_witness :
    (∀ p : Peg, List.Chain' (fun d e => e.size < d.size)
      (apply_move_input_after (initial_state 3) ⟨0, 2⟩ p)) ∧
    asMultiset (apply_move_input_after (initial_state 3) ⟨0, 2⟩) =
      asMultiset (initial_state 3) :=
  reachable_invariants 3 (apply_move_input_after (initial_state 3) ⟨0, 2⟩)
    ⟨[⟨0, 2⟩], by rfl⟩

/-- **C3**.  For every `n ≥ 1`, replaying `hanoi_recursive(n, 0, 2, 1)`
from `initial_state(n)` through `apply_move` succeeds at every step (no
move is ever rejected as illegal), and the final state is solved. -/
theorem hanoi_replay_solves (n : Nat) (hn : 1 ≤ n) :
    ∃ s', replay (initial_state n) (hanoi_recursive n 0 2 1) = .ok s' ∧
      is_solved s' n = true := by
  set seg : PegState :=
    (List.range n).map (fun (i : Nat) => { id := (i : Int), size := (n : Int) - (i : Int) })
    with hsegdef
  have hs0 : initial_state n 0 = seg := by
    simp [initial_state, hsegdef, Int.toNat_natCast]
  have hs1 : initial_state n 1 = [] := by simp [initial_state]
  have hs2 : initial_state n 2 = [] := by simp [initial_state]
  have hsizes : seg.map Disk.size = descInt n := by
    rw [hsegdef, List.map_map]
    exact initial_sizes n
  have hrun := hanoiSpec n 0 2 1 (by decide) (by decide) (by decide)
    (initial_state n) [] seg (by rw [hs0]; rfl) hsizes
    (fun x hx => absurd hx (List.not_mem_nil x))
    (fun x hx => absurd (hs2 ▸ hx) (List.not_mem_nil x))
    (fun x hx => absurd (hs1 ▸ hx) (List.not_mem_nil x))
  refine ⟨_, hrun, ?_⟩
  have hfin2 :
      Function.update (Function.update (initial_state n) 0 []) 2 (initial_state n 2 ++ seg) 2 =
        seg := by
    rw [Function.update_same, hs2]
    rfl
  unfold is_solved
  rw [hfin2, hsegdef]
  apply Bool.and_eq_true_iff.mpr
  constructor
  · simp
  · apply List.all_eq_true.mpr
    intro i hi
    have hilt : i < n := List.mem_range.mp (by simpa [Int.toNat_natCast] using hi)
    rw [List.get?_map, List.get?_range hilt]
    simp

/-- Witness for `hanoi_replay_solves` at `n = 2`. -/
theorem hanoi_replay_solves_witness :
    1 ≤ 2 ∧ ∃ s', replay (initial_state 2) (hanoi_recursive 2 0 2 1) = .ok s' ∧
      is_solved s' 2 = true :=
  ⟨by decide, hanoi_replay_solves 2 (by decide)⟩

/-- **C1** (code bug).  `apply_move` does *not* leave its input unchanged:
`new_state = list(state)` is a shallow copy, so the inner peg lists are
shared and the `pop`/`append` pair mutates the input state.  At the legal
move `0 → 1` from `initial_state(3)`, the input tuple afterwards shows the
moved configuration (equal to the returned state) instead of its prior
contents, contradicting the claim, the function's own docstring, and
`tests/test_rules.py::test_apply_move` (whose
`assert new_state != original_state` fails). -/
theorem apply_move_mutates_input_at_init3 :
    apply_move_input_after (initial_state 3) ⟨0, 1⟩ ≠ initial_state 3 ∧
    apply_move (initial_state 3) ⟨0, 1⟩ = .ok (apply_move_input_after (initial_state 3) ⟨0, 1⟩) := by
  exact ⟨by decide, rfl⟩

/-- **C2** (code bug).  The round-trip property fails: `build_trace_events`
never consumes the move generator returned by `hanoi_recursive_traced`, so
its result is the empty list and its `move` events cannot equal the
non-empty output of `hanoi_recursive`.  Evaluated at `n = 2` with pegs
`(0, 2, 1)`: the filtered moves are `[]` while the solver yields three
moves.  The repository's own tests
(`tests/test_trace.py::test_build_trace_events_move_count` among others)
assert the claimed behaviour and fail on this code. -/
theorem build_trace_events_moves_mismatch_n2 :
    moveEventsOf (build_trace_events 2 0 2 1) = [] ∧
    hanoi_recursive 2 0 2 1 = [⟨0, 1⟩, ⟨0, 2⟩, ⟨1, 2⟩] ∧
    moveEventsOf (build_trace_events 2 0 2 1) ≠ hanoi_recursive 2 0 2 1 := by
  exact ⟨rfl, rfl, by decide⟩

/-- **C4** (counterexample).  `initial_state(0)` does not fail: the source
performs no validation, `range(0)` is empty, and the call returns the state
with three empty pegs. -/
theorem initial_state_zero_returns_empty : initial_state 0 = fun _ => [] := by
  funext p
  simp [initial_state]

/-- **C4** (amended).  For every integer `n ≤ 0`, `initial_state(n)`
returns the state with all three pegs empty instead of failing: neither
`initial_state` nor `hanoi_recursive` validates its argument, and no
`InvalidArgument` error exists in the code. -/
theorem initial_state_nonpos_returns_empty (n : Int) (hn : n ≤ 0) :
    initial_state n = fun _ => [] := by
  funext p
  simp [initial_state, Int.toNat_of_nonpos hn]

/-- Witness for `initial_state_nonpos_returns_empty` at `n = -2`. -/
theorem initial_state_nonpos_returns_empty_witness : initial_state (-2) = fun _ => [] :=
  initial_state_nonpos_returns_empty (-2) (by decide)

/-- **C5**.  For `n ≥ 1` and distinct pegs, the recursive solver yields
exactly `2 ^ n - 1` moves. -/
theorem hanoi_recursive_length (n : Nat) (hn : 1 ≤ n) (a b c : Peg)
    (hab : a ≠ b) (hac : a ≠ c) (hbc : b ≠ c) :
    (hanoi_recursive n a b c).length = 2 ^ n - 1 :=
  hanoi_length_all n a b c

/-- Witness for `hanoi_recursive_length` at `n = 3`, pegs `(0, 2, 1)`. -/
theorem hanoi_recursive_length_witness : (hanoi_recursive 3 0 2 1).length = 2 ^ 3 - 1 :=
  hanoi_recursive_length 3 (by decide) 0 2 1 (by decide) (by decide) (by decide)

/-- **C6**.  `hanoi_recursive(3, 0, 2, 1)` yields exactly the seven moves
`[(0,2), (0,1), (2,1), (0,2), (1,0), (1,2), (0,2)]`, in the order produced
by the recursion solve(n-1, a, c, b); move a→b; solve(n-1, c, b, a). -/
theorem hanoi_recursive_three_sequence :
    hanoi_recursive 3 0 2 1 =
      [⟨0, 2⟩, ⟨0, 1⟩, ⟨2, 1⟩, ⟨0, 2⟩, ⟨1, 0⟩, ⟨1, 2⟩, ⟨0, 2⟩] := by
  rfl

/-- **C9**.  `build_trace_events` returns the empty list for every `n ≥ 1`:
it never iterates the generator returned by `hanoi_recursive_traced`, and
the traced recursion appends events only as that generator is consumed, so
no `enter`, `move` or `exit` event is ever recorded. -/
theorem build_trace_events_empty (n : Nat) (hn : 1 ≤ n) (a b c : Peg) :
    build_trace_events n a b c = [] :=
  rfl

/-- Witness for `build_trace_events_empty` at `n = 1`, pegs `(0, 2, 1)`. -/
theorem build_trace_events_empty_witness : build_trace_events 1 0 2 1 = [] :=
  build_trace_events_empty 1 (by decide) 0 2 1

/-! ### Structure of the traced event log -/

/-- The timestamp counter after a traced call equals its starting value
plus the number of events the call appended. -/
theorem tracedAux_finalT : ∀ (n : Nat) (a b c : Peg) (t0 : Int),
    (tracedAux n a b c t0).2 = t0 + (tracedAux n a b c t0).1.length := by
  intro n
  induction n using Nat.strong_induction_on with
  | _ n ih =>
    match n with
    | 0 => intro a b c t0; simp [tracedAux]
    | 1 => intro a b c t0; simp [tracedAux]
    | m + 2 =>
      intro a b c t0
      have h1 := ih (m + 1) (by omega) a c b (t0 + 1)
      have h2 := ih (m + 1) (by omega) c b a ((tracedAux (m + 1) a c b (t0 + 1)).2 + 1)
      simp only [tracedAux, List.length_cons, List.length_append, List.length_nil]
      omega

/-- Timestamps in a traced block are consecutive from the start value:
the event at index `j` has timestamp `t0 + j`. -/
theorem tracedAux_t : ∀ (n : Nat) (a b c : Peg) (t0 : Int) (j : Nat) (e : TraceEvent),
    (tracedAux n a b c t0).1.get? j = some e → e.t = t0 + j := by
  intro n
  induction n using Nat.strong_induction_on with
  | _ n ih =>
    match n with
    | 0 => intro a b c t0 j e h; simp [tracedAux] at h
    | 1 =>
      intro a b c t0 j e h
      match j with
      | 0 => have := Option.some.inj h; rw [← this]; simp
      | 1 => have := Option.some.inj h; rw [← this]; simp
      | 2 => have := Option.some.inj h; rw [← this]; simp
      | j + 3 => exact Option.noConfusion h
    | m + 2 =>
      intro a b c t0 j e h
      have hfin1 := tracedAux_finalT (m + 1) a c b (t0 + 1)
      have hfin2 := tracedAux_finalT (m + 1) c b a ((tracedAux (m + 1) a c b (t0 + 1)).2 + 1)
      simp only [tracedAux] at h
      match j with
      | 0 =>
        have := Option.some.inj h
        rw [← this]
        simp
      | j + 1 =>
        rw [List.get?_cons_succ] at h
        set E1 := (tracedAux (m + 1) a c b (t0 + 1)).1 with hE1
        set t1 := (tracedAux (m + 1) a c b (t0 + 1)).2 with ht1
        set E2 := (tracedAux (m + 1) c b a (t1 + 1)).1 with hE2
        set t2 := (tracedAux (m + 1) c b a (t1 + 1)).2 with ht2
        rcases Nat.lt_or_ge j E1.length with hj | hj
        · rw [List.get?_append hj] at h
          have := ih (m + 1) (by omega) a c b (t0 + 1) j e h
          omega
        · rw [List.get?_append_right hj] at h
          rcases Nat.eq_or_lt_of_le hj with hj2 | hj2
          · have hz : j - E1.length = 0 := by omega
            rw [hz] at h
            have := Option.some.inj h
            rw [← this]
            simp only
            omega
          · have hz : j - E1.length = (j - E1.length - 1) + 1 := by omega
            rw [hz, List.get?_cons_succ] at h
            set j2 := j - E1.length - 1 with hj2def
            rcases Nat.lt_or_ge j2 E2.length with hj3 | hj3
            · rw [List.get?_append hj3] at h
              have := ih (m + 1) (by omega) c b a (t1 + 1) j2 e h
              omega
            · rw [List.get?_append_right hj3] at h
              match hz2 : j2 - E2.length with
              | 0 =>
                rw [hz2] at h
                have := Option.some.inj h
                rw [← this]
                simp only
                omega
              | i + 1 =>
                rw [hz2] at h
                exact Option.noConfusion h

/-- A traced block (for `n ≥ 1`) starts with the `enter` event of its root
invocation, timestamped with the starting counter value. -/
theorem tracedAux_head (n : Nat) (hn : 1 ≤ n) (a b c : Peg) (t0 : Int) :
    ∃ rest, (tracedAux n a b c t0).1 =
      ⟨EventType.enter, ⟨n, a, b, c⟩, none, t0⟩ :: rest := by
  match n with
  | 1 => exact ⟨_, rfl⟩
  | m + 2 => exact ⟨_, rfl⟩

/-- The `active_node_at` loop with cutoff `t` processes exactly the
longest prefix of events whose timestamps do not exceed `t`. -/
theorem activeLoop_eq_procAll (t : Int) : ∀ (es : List TraceEvent) (st : List NodeId),
    activeLoop t es st = procAll (es.takeWhile (fun e => decide (e.t ≤ t))) st := by
  intro es
  induction es with
  | nil => intro st; rfl
  | cons e rest ih =>
    intro st
    rw [List.takeWhile_cons]
    by_cases h : t < e.t
    · have hd : (decide (e.t ≤ t)) = false := by simp; omega
      rw [hd]
      simp only [activeLoop, if_pos h, Bool.false_eq_true, if_false]
      rfl
    · have hd : (decide (e.t ≤ t)) = true := by simp; omega
      rw [hd]
      simp only [activeLoop, if_neg h, if_true]
      exact ih (stepEvent st e)

/-- Over a list with consecutive timestamps starting at `t0`, taking the
events with timestamp at most `τ` is taking the first `τ - t0 + 1`
elements. -/
theorem takeWhile_consecutive : ∀ (E : List TraceEvent) (t0 τ : Int),
    (∀ j e, E.get? j = some e → e.t = t0 + j) →
    E.takeWhile (fun e => decide (e.t ≤ τ)) = E.take (τ - t0 + 1).toNat := by
  intro E
  induction E with
  | nil => intro t0 τ h; simp
  | cons e rest ih =>
    intro t0 τ h
    have he : e.t = t0 := by have := h 0 e rfl; omega
    have hrest : ∀ j e', rest.get? j = some e' → e'.t = (t0 + 1) + j := by
      intro j e' hj
      have := h (j + 1) e' (by simpa using hj)
      omega
    rw [List.takeWhile_cons]
    by_cases hle : e.t ≤ τ
    · have hd : (decide (e.t ≤ τ)) = true := by simp; omega
      rw [hd]
      simp only [if_true]
      rw [ih (t0 + 1) τ hrest]
      have hn : (τ - t0 + 1).toNat = (τ - (t0 + 1) + 1).toNat + 1 := by omega
      rw [hn, List.take_succ_cons]
    · have hd : (decide (e.t ≤ τ)) = false := by simp; omega
      rw [hd]
      have hn : (τ - t0 + 1).toNat = 0 := by omega
      rw [hn]
      rfl

/-- `getLast?` of an append with a non-empty right part. -/
theorem getLast?_append_right_ne (l1 l2 : List NodeId) (h : l2 ≠ []) :
    (l1 ++ l2).getLast? = l2.getLast? := by
  rw [List.getLast?_append]
  cases hl : l2.getLast? with
  | none => exact absurd (List.getLast?_eq_none_iff.mp hl) h
  | some x => rfl

/-- Unfolding `procAll` over an append. -/
theorem procAll_append (xs ys : List TraceEvent) (st : List NodeId) :
    procAll (xs ++ ys) st = procAll ys (procAll xs st) :=
  List.foldl_append _ _ _ _

/-- Unfolding `procPop` over an append. -/
theorem procPop_append (xs ys : List TraceEvent) (st : List NodeId) :
    procPop (xs ++ ys) st = procPop ys (procPop xs st) :=
  List.foldl_append _ _ _ _

/-- The stack invariant of processing prefixes of a traced block.  For any
starting stack whose entries all have a larger disk count than the block's
root, processing any `k`-prefix of the block appends some list `opens` of
currently open calls to the stack, identically under remove-by-value
(`procAll`, as `active_node_at` does) and under strict pops (`procPop`);
the open calls have disk counts at most `n`, strictly decreasing along the
stack; a full prefix leaves the stack unchanged; and a prefix ending in an
`enter` event has that event's node on top. -/
theorem procBlock : ∀ (n : Nat), 1 ≤ n → ∀ (a b c : Peg) (t0 : Int) (k : Nat) (st : List NodeId),
    (∀ x ∈ st, n < x.n) →
    ∃ opens : List NodeId,
      procAll (((tracedAux n a b c t0).1).take k) st = st ++ opens ∧
      procPop (((tracedAux n a b c t0).1).take k) st = st ++ opens ∧
      (∀ x ∈ opens, x.n ≤ n) ∧
      List.Chain' (fun p x => x.n < p.n) opens ∧
      ((tracedAux n a b c t0).1.length ≤ k → opens = []) ∧
      (∀ e, 1 ≤ k → ((tracedAux n a b c t0).1).get? (k - 1) = some e →
        e.type = EventType.enter → opens.getLast? = some e.node_id) := by
  intro n
  induction n using Nat.strong_induction_on with
  | _ n ih =>
    match n with
    | 0 => intro h; exact absurd h (by decide)
    | 1 =>
      intro _ a b c t0 k st hst
      have hqst : (⟨1, a, b, c⟩ : NodeId) ∉ st := by
        intro hmem
        have := hst _ hmem
        simp at this
      match k with
      | 0 =>
        refine ⟨[], by simp [procAll], by simp [procPop], by simp, by simp, fun _ => rfl, ?_⟩
        intro e hk
        exact absurd hk (by decide)
      | 1 =>
        refine ⟨[⟨1, a, b, c⟩], rfl, rfl, ?_, by simp, ?_, ?_⟩
        · intro x hx
          have hxq : x = ⟨1, a, b, c⟩ := by simpa using hx
          rw [hxq]
        · intro hcon
          simp [tracedAux] at hcon
        · intro e _ he _
          have hee := Option.some.inj he
          rw [← hee]
          rfl
      | 2 =>
        refine ⟨[⟨1, a, b, c⟩], rfl, rfl, ?_, by simp, ?_, ?_⟩
        · intro x hx
          have hxq : x = ⟨1, a, b, c⟩ := by simpa using hx
          rw [hxq]
        · intro hcon
          simp [tracedAux] at hcon
        · intro e _ he htype
          have hee := Option.some.inj he
          rw [← hee] at htype
          simp at htype
      | k + 3 =>
        have htake : ((tracedAux 1 a b c t0).1).take (k + 3) = (tracedAux 1 a b c t0).1 :=
          List.take_of_length_le (by simp [tracedAux])
        refine ⟨[], ?_, ?_, by simp, by simp, fun _ => rfl, ?_⟩
        · rw [htake]
          show (if (⟨1, a, b, c⟩ : NodeId) ∈ st ++ [(⟨1, a, b, c⟩ : NodeId)] then
              (st ++ [(⟨1, a, b, c⟩ : NodeId)]).erase (⟨1, a, b, c⟩ : NodeId)
            else st ++ [(⟨1, a, b, c⟩ : NodeId)]) = st ++ ([] : List NodeId)
          rw [if_pos (by simp), List.erase_append_right _ hqst]
          simp
        · rw [htake]
          show (st ++ [(⟨1, a, b, c⟩ : NodeId)]).dropLast = st ++ ([] : List NodeId)
          rw [List.dropLast_concat]
          simp
        · intro e _ he htype
          match k, he with
          | 0, he =>
            have hee := Option.some.inj he
            rw [← hee] at htype
            simp at htype
          | i + 1, he => exact Option.noConfusion he
    | m + 2 =>
      intro _ a b c t0 k st hst
      set q : NodeId := ⟨m + 2, a, b, c⟩ with hqdef
      have hqn : q.n = m + 2 := rfl
      have hqst : q ∉ st := by
        intro hmem
        have := hst _ hmem
        omega
      set E1 := (tracedAux (m + 1) a c b (t0 + 1)).1 with hE1
      set t1 := (tracedAux (m + 1) a c b (t0 + 1)).2 with ht1
      set E2 := (tracedAux (m + 1) c b a (t1 + 1)).1 with hE2
      set t2 := (tracedAux (m + 1) c b a (t1 + 1)).2 with ht2
      set mv : TraceEvent := ⟨EventType.move, q, some ⟨a, b⟩, t1⟩ with hmv
      set ex : TraceEvent := ⟨EventType.exit, q, none, t2⟩ with hex
      have hE : (tracedAux (m + 2) a b c t0).1 =
          ⟨EventType.enter, q, none, t0⟩ :: (E1 ++ mv :: (E2 ++ [ex])) := by
        rw [hmv, hex, hE1, hE2, ht2, ht1, hqdef]
        rfl
      have hlen : (tracedAux (m + 2) a b c t0).1.length = E1.length + E2.length + 3 := by
        rw [hE]
        simp only [List.length_cons, List.length_append, List.length_singleton,
          List.length_nil]
        omega
      have hstq : ∀ x ∈ st ++ [q], m + 1 < x.n := by
        intro x hx
        rcases List.mem_append.mp hx with hx | hx
        · have := hst x hx
          omega
        · have hxq : x = q := by simpa using hx
          rw [hxq]
          omega
      -- processing the two sub-blocks in full returns the stack unchanged
      obtain ⟨oF1, hFA1, hFP1, _, _, hFf1, _⟩ :=
        ih (m + 1) (by omega) (by omega) a c b (t0 + 1) E1.length (st ++ [q]) hstq
      rw [← hE1] at hFA1 hFP1 hFf1
      have hoF1 : oF1 = [] := hFf1 (Nat.le_refl _)
      subst hoF1
      rw [List.take_length, List.append_nil] at hFA1 hFP1
      obtain ⟨oF2, hFA2, hFP2, _, _, hFf2, _⟩ :=
        ih (m + 1) (by omega) (by omega) c b a (t1 + 1) E2.length (st ++ [q]) hstq
      rw [← hE2] at hFA2 hFP2 hFf2
      have hoF2 : oF2 = [] := hFf2 (Nat.le_refl _)
      subst hoF2
      rw [List.take_length, List.append_nil] at hFA2 hFP2
      match k with
      | 0 =>
        refine ⟨[], by simp [procAll], by simp [procPop], by simp, by simp, fun _ => rfl, ?_⟩
        intro e hk
        exact absurd hk (by decide)
      | j + 1 =>
        have htake : ((tracedAux (m + 2) a b c t0).1).take (j + 1) =
            ⟨EventType.enter, q, none, t0⟩ :: ((E1 ++ mv :: (E2 ++ [ex])).take j) := by
          rw [hE, List.take_succ_cons]
        rcases Nat.lt_or_ge j (E1.length + 1) with hreg | hreg
        · -- within (or at the end of) the first sub-block
          have hjle : j ≤ E1.length := by omega
          have htail : (E1 ++ mv :: (E2 ++ [ex])).take j = E1.take j := by
            rw [List.take_append_eq_append_take]
            have hz : j - E1.length = 0 := by omega
            rw [hz]
            simp
          obtain ⟨opens1, hA1, hP1, hb1, hc1, _, hl1⟩ :=
            ih (m + 1) (by omega) (by omega) a c b (t0 + 1) j (st ++ [q]) hstq
          rw [← hE1] at hA1 hP1 hl1
          refine ⟨q :: opens1, ?_, ?_, ?_, ?_, ?_, ?_⟩
          · rw [htake, htail]
            show procAll (E1.take j) (st ++ [q]) = st ++ q :: opens1
            rw [hA1, List.append_assoc, List.singleton_append]
          · rw [htake, htail]
            show procPop (E1.take j) (st ++ [q]) = st ++ q :: opens1
            rw [hP1, List.append_assoc, List.singleton_append]
          · intro x hx
            rcases List.mem_cons.mp hx with hx | hx
            · rw [hx]
            · have := hb1 x hx
              omega
          · apply List.chain'_cons'.mpr
            refine ⟨?_, hc1⟩
            intro y hy
            have := hb1 y (List.mem_of_mem_head? hy)
            omega
          · intro hcon
            rw [hlen] at hcon
            omega
          · intro e hk he htype
            rw [hE] at he
            simp only [Nat.add_sub_cancel] at he
            rcases Nat.eq_zero_or_pos j with hj0 | hj0
            · subst hj0
              have hopens1 : opens1 = [] := by
                have h0 := hA1
                simp only [List.take_zero] at h0
                have h0' : st ++ [q] = (st ++ [q]) ++ opens1 := h0
                exact List.self_eq_append_right.mp h0'
              subst hopens1
              have hee := Option.some.inj he
              rw [← hee]
              rfl
            · rw [show j = (j - 1) + 1 by omega, List.get?_cons_succ] at he
              rw [List.get?_append (by omega : j - 1 < E1.length)] at he
              have hres := hl1 e (by omega) he htype
              have hne : opens1 ≠ [] := by
                intro hnil
                rw [hnil] at hres
                exact Option.noConfusion hres
              rw [show q :: opens1 = [q] ++ opens1 from rfl,
                getLast?_append_right_ne _ _ hne]
              exact hres
        · rcases Nat.lt_or_ge j (E1.length + 2) with hreg2 | hreg2
          · -- exactly at the move event of the root call
            have hj : j = E1.length + 1 := by omega
            subst hj
            have htail : (E1 ++ mv :: (E2 ++ [ex])).take (E1.length + 1) = E1 ++ [mv] := by
              rw [List.take_append_eq_append_take]
              rw [List.take_of_length_le (by omega)]
              have hz : E1.length + 1 - E1.length = 1 := by omega
              rw [hz]
              rfl
            refine ⟨[q], ?_, ?_, ?_, by simp, ?_, ?_⟩
            · rw [htake, htail]
              show procAll (E1 ++ [mv]) (st ++ [q]) = st ++ [q]
              rw [procAll_append, hFA1]
              simp only [procAll, List.foldl_cons, List.foldl_nil, hmv, stepEvent]
            · rw [htake, htail]
              show procPop (E1 ++ [mv]) (st ++ [q]) = st ++ [q]
              rw [procPop_append, hFP1]
              simp only [procPop, List.foldl_cons, List.foldl_nil, hmv, stepPop]
            · intro x hx
              have hxq : x = q := by simpa using hx
              rw [hxq]
            · intro hcon
              rw [hlen] at hcon
              omega
            · intro e _ he htype
              rw [hE] at he
              simp only [Nat.add_sub_cancel] at he
              rw [List.get?_cons_succ] at he
              rw [List.get?_append_right (Nat.le_refl _)] at he
              simp only [Nat.sub_self] at he
              have hee := Option.some.inj he
              rw [← hee] at htype
              simp at htype
          · rcases Nat.lt_or_ge j (E1.length + 2 + E2.length) with hreg3 | hreg3
            · -- within (or at the end of) the second sub-block
              set j2 := j - E1.length - 1 with hj2def
              have hj2a : 1 ≤ j2 := by omega
              have hj2b : j2 ≤ E2.length := by omega
              have htail : (E1 ++ mv :: (E2 ++ [ex])).take j = E1 ++ mv :: E2.take j2 := by
                rw [List.take_append_eq_append_take]
                rw [List.take_of_length_le (by omega)]
                have hz : j - E1.length = j2 + 1 := by omega
                rw [hz, List.take_succ_cons]
                rw [List.take_append_eq_append_take]
                have hz2 : j2 - E2.length = 0 := by omega
                rw [hz2]
                simp
              obtain ⟨opens2, hA2, hP2, hb2, hc2, _, hl2⟩ :=
                ih (m + 1) (by omega) (by omega) c b a (t1 + 1) j2 (st ++ [q]) hstq
              rw [← hE2] at hA2 hP2 hl2
              refine ⟨q :: opens2, ?_, ?_, ?_, ?_, ?_, ?_⟩
              · rw [htake, htail]
                show procAll (E1 ++ mv :: E2.take j2) (st ++ [q]) = st ++ q :: opens2
                rw [procAll_append, hFA1]
                show procAll (E2.take j2) (st ++ [q]) = st ++ q :: opens2
                rw [hA2, List.append_assoc, List.singleton_append]
              · rw [htake, htail]
                show procPop (E1 ++ mv :: E2.take j2) (st ++ [q]) = st ++ q :: opens2
                rw [procPop_append, hFP1]
                show procPop (E2.take j2) (st ++ [q]) = st ++ q :: opens2
                rw [hP2, List.append_assoc, List.singleton_append]
              · intro x hx
                rcases List.mem_cons.mp hx with hx | hx
                · rw [hx]
                · have := hb2 x hx
                  omega
              · apply List.chain'_cons'.mpr
                refine ⟨?_, hc2⟩
                intro y hy
                have := hb2 y (List.mem_of_mem_head? hy)
                omega
              · intro hcon
                rw [hlen] at hcon
                omega
              · intro e hk he htype
                rw [hE] at he
                simp only [Nat.add_sub_cancel] at he
                rw [show j = (j - 1) + 1 by omega, List.get?_cons_succ] at he
                rw [List.get?_append_right (by omega : E1.length ≤ j - 1)] at he
                rw [show j - 1 - E1.length = (j2 - 1) + 1 by omega,
                  List.get?_cons_succ] at he
                rw [List.get?_append (by omega : j2 - 1 < E2.length)] at he
                have hres := hl2 e (by omega) he htype
                have hne : opens2 ≠ [] := by
                  intro hnil
                  rw [hnil] at hres
                  exact Option.noConfusion hres
                rw [show q :: opens2 = [q] ++ opens2 from rfl,
                  getLast?_append_right_ne _ _ hne]
                exact hres
            · -- at or past the closing exit of the root call
              have htakeD : ((tracedAux (m + 2) a b c t0).1).take (j + 1) =
                  (tracedAux (m + 2) a b c t0).1 :=
                List.take_of_length_le (by rw [hlen]; omega)
              refine ⟨[], ?_, ?_, by simp, by simp, fun _ => rfl, ?_⟩
              · rw [htakeD, hE]
                show procAll (E1 ++ mv :: (E2 ++ [ex])) (st ++ [q]) = st ++ []
                rw [procAll_append, hFA1]
                show procAll (E2 ++ [ex]) (st ++ [q]) = st ++ []
                rw [procAll_append, hFA2]
                show (if q ∈ st ++ [q] then (st ++ [q]).erase q else st ++ [q]) = st ++ []
                rw [if_pos (by simp), List.erase_append_right _ hqst]
                simp
              · rw [htakeD, hE]
                show procPop (E1 ++ mv :: (E2 ++ [ex])) (st ++ [q]) = st ++ []
                rw [procPop_append, hFP1]
                show procPop (E2 ++ [ex]) (st ++ [q]) = st ++ []
                rw [procPop_append, hFP2]
                show (st ++ [q]).dropLast = st ++ []
                rw [List.dropLast_concat]
                simp
              · intro e hk he htype
                rw [hE] at he
                simp only [Nat.add_sub_cancel] at he
                rw [show j = (j - 1) + 1 by omega, List.get?_cons_succ] at he
                rw [List.get?_append_right (by omega : E1.length ≤ j - 1)] at he
                rw [show j - 1 - E1.length = (j - 2 - E1.length) + 1 by omega,
                  List.get?_cons_succ] at he
                rw [List.get?_append_right (by omega : E2.length ≤ j - 2 - E1.length)] at he
                match hz : j - 2 - E1.length - E2.length, he with
                | 0, he =>
                  have hee := Option.some.inj he
                  rw [← hee] at htype
                  simp at htype
                | i + 1, he => exact Option.noConfusion he

/-- **C8**.  On the event log of a fully executed traced solve
(`tracedEvents`, the `events` list after the generator of
`hanoi_recursive_traced` has been consumed to exhaustion),
`active_node_at` returns `none` for any timestamp before the first event's
and for any timestamp at or after the last event's, and at an `enter`
event's timestamp (necessarily before that call's matching `exit`, whose
timestamp is larger) it returns exactly that event's node id — which in
particular satisfies the claim's "that nodeId or a deeper nested one". -/
theorem active_node_at_spec (n : Nat) (hn : 1 ≤ n) (a b c : Peg) :
    (∀ t : Int, (∀ e ∈ (tracedEvents n a b c).head?, t < e.t) →
      active_node_at (tracedEvents n a b c) t = none) ∧
    (∀ t : Int, (∀ e ∈ (tracedEvents n a b c).getLast?, e.t ≤ t) →
      active_node_at (tracedEvents n a b c) t = none) ∧
    (∀ i e, (tracedEvents n a b c).get? i = some e → e.type = EventType.enter →
      active_node_at (tracedEvents n a b c) e.t = some e.node_id) := by
  obtain ⟨rest, hhead⟩ := tracedAux_head n hn a b c 0
  have hts : ∀ j e, ((tracedAux n a b c 0).1).get? j = some e → e.t = 0 + j :=
    tracedAux_t n a b c 0
  simp only [tracedEvents]
  refine ⟨?_, ?_, ?_⟩
  · -- before the first event
    intro t ht
    have hh : ((tracedAux n a b c 0).1).head? =
        some ⟨EventType.enter, ⟨n, a, b, c⟩, none, 0⟩ := by
      rw [hhead]
      rfl
    have ht0 : t < (0 : Int) := by
      have := ht ⟨EventType.enter, ⟨n, a, b, c⟩, none, 0⟩ (by rw [hh]; rfl)
      simpa using this
    unfold active_node_at
    rw [hhead]
    show (activeLoop t (⟨EventType.enter, ⟨n, a, b, c⟩, none, 0⟩ :: rest) []).getLast? = none
    simp only [activeLoop]
    rw [if_pos ht0]
    rfl
  · -- at or after the last event
    intro t ht
    have hne : (tracedAux n a b c 0).1 ≠ [] := by
      rw [hhead]
      exact List.cons_ne_nil _ _
    have hpos : 1 ≤ (tracedAux n a b c 0).1.length := List.length_pos.mpr hne
    cases hg : (tracedAux n a b c 0).1.getLast? with
    | none => exact absurd (List.getLast?_eq_none_iff.mp hg) hne
    | some le =>
      have hmem : (tracedAux n a b c 0).1.get? ((tracedAux n a b c 0).1.length - 1) =
          some le := by
        rw [← List.getLast?_eq_get?, hg]
      have hlet := hts _ le hmem
      have hlet2 : le.t ≤ t := ht le (by rw [hg]; rfl)
      unfold active_node_at
      rw [activeLoop_eq_procAll, takeWhile_consecutive _ 0 t hts]
      obtain ⟨opens, hA, _, _, _, hfull, _⟩ :=
        procBlock n hn a b c 0 ((t - 0 + 1).toNat) [] (by simp)
      rw [hA, List.nil_append]
      rw [hfull (by omega)]
      rfl
  · -- at an enter event's timestamp
    intro i e he htype
    have het := hts i e he
    unfold active_node_at
    rw [activeLoop_eq_procAll, takeWhile_consecutive _ 0 e.t hts]
    have hk : (e.t - 0 + 1).toNat = i + 1 := by omega
    rw [hk]
    obtain ⟨opens, hA, _, _, _, _, hl⟩ := procBlock n hn a b c 0 (i + 1) [] (by simp)
    rw [hA, List.nil_append]
    exact hl e (by omega) he htype

/-- Witness for `active_node_at_spec` at `n = 1`, pegs `(0, 2, 1)`:
timestamps `-1` (before the log), `5` (after the log) and `0` (the root
`enter`). -/
theorem active_node_at_spec_witness :
    active_node_at (tracedEvents 1 0 2 1) (-1) = none ∧
    active_node_at (tracedEvents 1 0 2 1) 5 = none ∧
    active_node_at (tracedEvents 1 0 2 1) 0 = some ⟨1, 0, 2, 1⟩ := by
  obtain ⟨h1, h2, h3⟩ := active_node_at_spec 1 (by decide) 0 2 1
  refine ⟨h1 (-1) (by decide), h2 5 (by decide), ?_⟩
  exact h3 0 ⟨EventType.enter, ⟨1, 0, 2, 1⟩, none, 0⟩ (by rfl) (by rfl)

/-- **C10**.  In every prefix of a fully executed traced solve's event
log, the currently open calls (as tracked by `active_node_at`'s
stack discipline, `procAll`) carry strictly decreasing disk counts along
the stack — hence pairwise distinct node ids — and the remove-by-value
processing coincides with strict stack popping (`procPop`) on every
prefix. -/
theorem open_nodes_distinct_pop (n : Nat) (hn : 1 ≤ n) (a b c : Peg) (k : Nat) :
    List.Chain' (fun p x => x.n < p.n) (procAll ((tracedEvents n a b c).take k) []) ∧
    (procAll ((tracedEvents n a b c).take k) []).Pairwise (fun p x => p ≠ x) ∧
    procAll ((tracedEvents n a b c).take k) [] =
      procPop ((tracedEvents n a b c).take k) [] := by
  obtain ⟨opens, hA, hP, _, hchain, _, _⟩ := procBlock n hn a b c 0 k [] (by simp)
  have hA' : procAll ((tracedEvents n a b c).take k) [] = opens := by
    show procAll (((tracedAux n a b c 0).1).take k) [] = opens
    rw [hA, List.nil_append]
  have hP' : procPop ((tracedEvents n a b c).take k) [] = opens := by
    show procPop (((tracedAux n a b c 0).1).take k) [] = opens
    rw [hP, List.nil_append]
  haveI : IsTrans NodeId (fun p x => x.n < p.n) :=
    ⟨fun _ _ _ h1 h2 => lt_trans h2 h1⟩
  refine ⟨?_, ?_, ?_⟩
  · rw [hA']
    exact hchain
  · rw [hA']
    have hpw := List.chain'_iff_pairwise.mp hchain
    exact hpw.imp (fun h => by
      intro heq
      rw [heq] at h
      exact absurd h (lt_irrefl _))
  · rw [hA', hP']

/-- Witness for `open_nodes_distinct_pop` at `n = 2`, pegs `(0, 2, 1)`,
prefix length `k = 2` (root `enter` plus nested `enter` both open). -/
theorem open_nodes_distinct_pop_witness :
    List.Chain' (fun p x => x.n < p.n) (procAll ((tracedEvents 2 0 2 1).take 2) []) ∧
    (procAll ((tracedEvents 2 0 2 1).take 2) []).Pairwise (fun p x => p ≠ x) ∧
    procAll ((tracedEvents 2 0 2 1).take 2) [] =
      procPop ((tracedEvents 2 0 2 1).take 2) [] :=
  open_nodes_distinct_pop 2 (by decide) 0 2 1 2

end Hanoi
